import Mathlib

/-!
Verification of the L2S highlight-fusion specification.

The fusion/selection core (`src/core/highlight_detection/fusion.py` and the
surrounding EchoFusion pipeline) is described in the repository README but its
source is not part of the tree, so the data model and the algorithms below are
modelled from the specification text (score normalization, weighted fusion,
greedy selection under a duration budget, chronological re-sort, adjacent-span
merging and length enforcement).  Floating-point scores and timestamps are
embedded as exact rationals.  The front-end components (`Modal`,
`RegisterPage`) are embedded directly from their TypeScript sources.
-/

namespace L2S

/-- Modelled from the spec: a shot `{id, start, end}` produced by the external
segmenter; `start < end`, shots non-overlapping and sorted by `start`. -/
structure Shot where
  id : ℕ
  start : ℚ
  «end» : ℚ
deriving DecidableEq

/-- Duration of a shot in seconds. -/
def duration (s : Shot) : ℚ := s.«end» - s.start

/-- Modelled from the spec: one branch column of a ScoreTable, a finite map
from shot id to a raw score; a shot may be absent from a column. -/
abbrev Column := List (ℕ × ℚ)

/-- The raw values present in a column. -/
def columnValues (col : Column) : List ℚ := col.map Prod.snd

/-- Minimum of a non-empty bag of values, seeded with the first value. -/
def colMin (v : ℚ) (vs : List ℚ) : ℚ := vs.foldl min v

/-- Maximum of a non-empty bag of values, seeded with the first value. -/
def colMax (v : ℚ) (vs : List ℚ) : ℚ := vs.foldl max v

/-- Modelled from the spec: min-max normalization of one branch column,
`normalized = (raw - min) / (max - min)`, with every value set to `0` when
`max = min` across the present raw values (degenerate case). -/
def normalizeColumn (col : Column) : Column :=
  match col with
  | [] => []
  | p :: ps =>
    let mn := colMin p.2 (columnValues ps)
    let mx := colMax p.2 (columnValues ps)
    if mx = mn then (p :: ps).map (fun q => (q.1, 0))
    else (p :: ps).map (fun q => (q.1, (q.2 - mn) / (mx - mn)))

/-- Modelled from the spec: per-shot accumulator of the three branch columns
`HD`, `TXT`, `AUD`. -/
structure ScoreTable where
  hd : Column
  txt : Column
  aud : Column

/-- Modelled from the spec: normalization is computed independently per branch
column, never across branches. -/
def normalizeTable (t : ScoreTable) : ScoreTable :=
  ⟨normalizeColumn t.hd, normalizeColumn t.txt, normalizeColumn t.aud⟩

/-- Modelled from the spec: non-negative fusion weights. -/
structure FusionWeights where
  w_hd : ℚ
  w_txt : ℚ
  w_aud : ℚ

/-- Modelled from the spec: a shot together with its fused `final_score`. -/
structure ScoredShot where
  shot : Shot
  final_score : ℚ
deriving DecidableEq

/-- Branch term of the fusion formula: the column value for the shot id,
defaulting to `0` if that branch never scored the shot. -/
def branchScore (col : Column) (i : ℕ) : ℚ := ((col.lookup i).getD 0)

/-- Modelled from the spec: `final_score = w_hd * HD + w_txt * TXT +
w_aud * AUD`, one ScoredShot per shot of the ShotStore, no clamping. -/
def fuse (shots : List Shot) (t : ScoreTable) (w : FusionWeights) :
    List ScoredShot :=
  shots.map fun s =>
    ⟨s, w.w_hd * branchScore t.hd s.id + w.w_txt * branchScore t.txt s.id +
        w.w_aud * branchScore t.aud s.id⟩

/-- Weights scaled by a common factor. -/
def scaleWeights (c : ℚ) (w : FusionWeights) : FusionWeights :=
  ⟨c * w.w_hd, c * w.w_txt, c * w.w_aud⟩

/-- A column with every raw value replaced by `0`. -/
def zeroColumn (col : Column) : Column := col.map fun p => (p.1, 0)

/-- Modelled from the spec: selection configuration
`{weights, keep_seconds, min_len, max_len, merge_gap}`. -/
structure FusionConfig where
  weights : FusionWeights
  keep_seconds : ℚ
  min_len : ℚ
  max_len : ℚ
  merge_gap : ℚ

/-- Modelled from the spec: a configuration is valid when weights are
non-negative, `keep_seconds > 0`, `min_len > 0`, `max_len ≥ min_len` and
`merge_gap ≥ 0`; anything else is the fatal `InvalidConfig` error. -/
def validConfig (c : FusionConfig) : Prop :=
  0 ≤ c.weights.w_hd ∧ 0 ≤ c.weights.w_txt ∧ 0 ≤ c.weights.w_aud ∧
  0 < c.keep_seconds ∧ 0 < c.min_len ∧ c.min_len ≤ c.max_len ∧
  0 ≤ c.merge_gap

instance (c : FusionConfig) : Decidable (validConfig c) := by
  unfold validConfig; exact inferInstance

/-- Modelled from the spec: ranking order, `final_score` descending with ties
broken by ascending shot id. -/
def rankRel (a b : ScoredShot) : Prop :=
  b.final_score < a.final_score ∨
    (a.final_score = b.final_score ∧ a.shot.id ≤ b.shot.id)

instance : DecidableRel rankRel := fun a b => by
  unfold rankRel; exact inferInstance

/-- Modelled from the spec: chronological order by shot `start`. -/
def chronRel (a b : ScoredShot) : Prop := a.shot.start ≤ b.shot.start

instance : DecidableRel chronRel := fun a b => by
  unfold chronRel; exact inferInstance

instance : IsTotal ScoredShot chronRel := ⟨fun _ _ => le_total _ _⟩

instance : IsTrans ScoredShot chronRel := ⟨fun _ _ _ => le_trans⟩

/-- Greedy accumulation over the tail of the ranked list: a shot is admitted
while the cumulative duration stays within the budget, and the scan stops at
the first shot that would push the cumulative duration past it. -/
def accumulateGo (budget : ℚ) (acc : ℚ) : List ScoredShot → List ScoredShot
  | [] => []
  | s :: ss =>
    if acc + duration s.shot ≤ budget then
      s :: accumulateGo budget (acc + duration s.shot) ss
    else []

/-- Modelled from the spec: greedy accumulation in ranked order; the first
ranked shot is always admitted, even if its own duration exceeds the budget. -/
def accumulate (budget : ℚ) : List ScoredShot → List ScoredShot
  | [] => []
  | s :: ss => s :: accumulateGo budget (duration s.shot) ss

/-- A candidate highlight span before rank assignment. -/
structure Span where
  start : ℚ
  «end» : ℚ
  score : ℚ
deriving DecidableEq

/-- Modelled from the spec: merging combines the time range
(`start = min`, `end = max`) and takes the maximum of the two scores. -/
def mergeSpan (a b : Span) : Span :=
  ⟨min a.start b.start, max a.«end» b.«end», max a.score b.score⟩

/-- Left-to-right merge scan carrying the span built so far: the next span is
absorbed when the gap between the current span's end and its start is strictly
less than `gap`. -/
def mergeGo (gap : ℚ) (cur : Span) : List Span → List Span
  | [] => [cur]
  | h :: t =>
    if h.start - cur.«end» < gap then mergeGo gap (mergeSpan cur h) t
    else cur :: mergeGo gap h t

/-- Modelled from the spec: merge chronologically consecutive spans whose gap
is strictly less than `merge_gap`. -/
def mergeAdjacent (gap : ℚ) : List Span → List Span
  | [] => []
  | h :: t => mergeGo gap h t

/-- Modelled from the spec: a span shorter than `min_len` is extended
symmetrically, or one-sided at a recording boundary (the video spans
`[0, B]`), up to `min_len` if the video bounds allow, else left short. -/
def extendSpan (B minLen : ℚ) (s : Span) : Span :=
  if minLen ≤ s.«end» - s.start then s
  else
    let need := minLen - (s.«end» - s.start)
    let ns := s.start - need / 2
    let ne := s.«end» + need / 2
    if ns < 0 then ⟨0, min (ne - ns) B, s.score⟩
    else if B < ne then ⟨max 0 (ns - (ne - B)), B, s.score⟩
    else ⟨ns, ne, s.score⟩

/-- Modelled from the spec: a span longer than `max_len` is truncated to
`max_len` keeping its original `start` (the earlier portion). -/
def truncateSpan (maxLen : ℚ) (s : Span) : Span :=
  if maxLen < s.«end» - s.start then ⟨s.start, s.start + maxLen, s.score⟩
  else s

/-- Length enforcement after merging: extend up to `min_len`, then truncate to
`max_len`. -/
def enforceLength (B minLen maxLen : ℚ) (s : Span) : Span :=
  truncateSpan maxLen (extendSpan B minLen s)

/-- Modelled from the spec: final output entity `{start, end, score, rank}`. -/
structure Highlight where
  start : ℚ
  «end» : ℚ
  score : ℚ
  rank : ℕ
deriving DecidableEq

/-- Stage 1-2 of the selector: rank by score and greedily accumulate under the
duration budget. -/
def selectionStage (cfg : FusionConfig) (input : List ScoredShot) :
    List ScoredShot :=
  accumulate cfg.keep_seconds (List.insertionSort rankRel input)

/-- Stage 3 of the selector: chronological re-sort of the selection set. -/
def chronStage (cfg : FusionConfig) (input : List ScoredShot) :
    List ScoredShot :=
  List.insertionSort chronRel (selectionStage cfg input)

/-- The selected shots as time spans, in chronological order. -/
def spanStage (cfg : FusionConfig) (input : List ScoredShot) : List Span :=
  (chronStage cfg input).map fun p => ⟨p.shot.start, p.shot.«end», p.final_score⟩

/-- Stage 4 of the selector: adjacent merging. -/
def mergedStage (cfg : FusionConfig) (input : List ScoredShot) : List Span :=
  mergeAdjacent cfg.merge_gap (spanStage cfg input)

/-- Stages 1-5 of the selector: spans after merging and length enforcement. -/
def selectSpans (cfg : FusionConfig) (B : ℚ) (input : List ScoredShot) :
    List Span :=
  (mergedStage cfg input).map (enforceLength B cfg.min_len cfg.max_len)

/-- Modelled from the spec: assign `rank` by descending `score` over the final
list (ties by earlier `start`), keeping the chronological order. -/
def assignRanks (spans : List Span) : List Highlight :=
  spans.map fun s =>
    ⟨s.start, s.«end», s.score,
     1 + (spans.filter fun t =>
            s.score < t.score ∨ (t.score = s.score ∧ t.start < s.start)).length⟩

/-- Modelled from the spec: the full HighlightSelector over the video
`[0, B]`. -/
def selectHighlights (cfg : FusionConfig) (B : ℚ) (input : List ScoredShot) :
    List Highlight :=
  assignRanks (selectSpans cfg B input)

/-- Error kinds surfaced by the selector boundary. -/
inductive SelectError where
  | invalidConfig
deriving DecidableEq

/-- Modelled from the spec: the selector entry point rejects an invalid
configuration before any selection runs; empty input is not an error. -/
def runHighlightSelector (cfg : FusionConfig) (B : ℚ)
    (input : List ScoredShot) : Except SelectError (List Highlight) :=
  if validConfig cfg then .ok (selectHighlights cfg B input)
  else .error .invalidConfig

/-- Total duration of a list of scored shots. -/
def totalDuration (l : List ScoredShot) : ℚ :=
  (l.map fun p => duration p.shot).sum

end L2S

namespace Frontend

/-- Props of the `Modal` component: `{isOpen, onClose, children}`. -/
structure ModalProps (α : Type) where
  isOpen : Bool
  onClose : Unit → Unit
  children : α

/-- The rendered inner modal window holding the children. -/
structure ModalWindow (α : Type) where
  content : α

/-- The rendered backdrop wrapper; clicking it fires `onClose`. -/
structure ModalWrapper (α : Type) where
  onClick : Unit → Unit
  window : ModalWindow α

/-- The `Modal` component: returns `null` (`none`) when `isOpen` is false,
otherwise the wrapper containing the window containing the children. -/
def Modal {α : Type} (p : ModalProps α) : Option (ModalWrapper α) :=
  if p.isOpen then some ⟨p.onClose, ⟨p.children⟩⟩ else none

/-- Field values of the registration form. -/
structure RegisterFormData where
  email : List Char
  password : List Char
  confirmPassword : List Char

/-- Per-field validation errors of `RegisterPage`, one constructor per
registered rule (each carries its Korean message in the source). -/
inductive RegisterFieldError where
  | emailRequired
  | emailPattern
  | passwordRequired
  | passwordMinLength
  | passwordPattern
  | confirmRequired
  | confirmMismatch
deriving DecidableEq

/-- A character admissible in every part of the email regular expression
`[^\s@]`: neither whitespace nor `@`. -/
def isAddrChar (c : Char) : Bool := !c.isWhitespace && c != '@'

/-- Matching of the email pattern of `RegisterPage`: the string decomposes as
`a ++ [at] ++ b ++ [dot] ++ c` with `a`, `b`, `c` non-empty strings of
`[^\s@]` characters (existence semantics of the anchored regex). -/
def matchesEmailPattern (s : List Char) : Bool :=
  (List.range s.length).any fun i =>
    (List.range s.length).any fun j =>
      (s.getD i ' ' == '@') && (s.getD j ' ' == '.') &&
      !(s.take i).isEmpty && (s.take i).all isAddrChar &&
      !((s.drop (i + 1)).take (j - (i + 1))).isEmpty &&
      ((s.drop (i + 1)).take (j - (i + 1))).all isAddrChar &&
      !(s.drop (j + 1)).isEmpty && (s.drop (j + 1)).all isAddrChar

/-- The special characters required by the password pattern of
`RegisterPage`. -/
def specialChars : List Char :=
  ['!', '@', '#', '$', '%', '^', '&', '*', '(', ')', ',', '.', '?', '"',
   ':', Char.ofNat 123, Char.ofNat 125, '|', '<', '>']

/-- Whether the password contains at least one special character (the
lookahead of the password pattern). -/
def hasSpecialChar (s : List Char) : Bool := s.any fun c => specialChars.contains c

/-- Email rules of `RegisterPage`, checked in react-hook-form order:
`required`, then `pattern`. -/
def emailRules (v : List Char) : Option RegisterFieldError :=
  if v.isEmpty then some .emailRequired
  else if matchesEmailPattern v then none
  else some .emailPattern

/-- Password rules of `RegisterPage`, checked in react-hook-form order:
`required`, then `minLength` 8, then the special-character `pattern`. -/
def passwordRules (v : List Char) : Option RegisterFieldError :=
  if v.isEmpty then some .passwordRequired
  else if v.length < 8 then some .passwordMinLength
  else if hasSpecialChar v then none
  else some .passwordPattern

/-- Confirm-password rules of `RegisterPage`: `required`, then the custom
`validate` comparing against the watched password value. -/
def confirmRules (password v : List Char) : Option RegisterFieldError :=
  if v.isEmpty then some .confirmRequired
  else if v = password then none
  else some .confirmMismatch

/-- `handleSubmit` invokes the submit callback exactly when every registered
field validation returned no error. -/
def submitInvoked (d : RegisterFormData) : Bool :=
  (emailRules d.email).isNone && (passwordRules d.password).isNone &&
  (confirmRules d.password d.confirmPassword).isNone

end Frontend

namespace L2S

lemma foldl_min_const (v : ℚ) (l : List ℚ) (h : ∀ x ∈ l, x = v) :
    l.foldl min v = v := by
  induction l with
  | nil => rfl
  | cons x xs ih =>
    have hx : x = v := h x (List.mem_cons_self _ _)
    simp only [List.foldl_cons, hx, min_self]
    exact ih fun y hy => h y (List.mem_cons_of_mem _ hy)

lemma foldl_max_const (v : ℚ) (l : List ℚ) (h : ∀ x ∈ l, x = v) :
    l.foldl max v = v := by
  induction l with
  | nil => rfl
  | cons x xs ih =>
    have hx : x = v := h x (List.mem_cons_self _ _)
    simp only [List.foldl_cons, hx, max_self]
    exact ih fun y hy => h y (List.mem_cons_of_mem _ hy)

lemma foldl_min_le (l : List ℚ) : ∀ (v : ℚ),
    l.foldl min v ≤ v ∧ ∀ x ∈ l, l.foldl min v ≤ x := by
  induction l with
  | nil => exact fun v => ⟨le_refl v, by simp⟩
  | cons x xs ih =>
    intro v
    obtain ⟨h1, h2⟩ := ih (min v x)
    refine ⟨le_trans h1 (min_le_left _ _), ?_⟩
    intro y hy
    rcases List.mem_cons.mp hy with rfl | hy
    · exact le_trans h1 (min_le_right _ _)
    · exact h2 y hy

lemma le_foldl_max (l : List ℚ) : ∀ (v : ℚ),
    v ≤ l.foldl max v ∧ ∀ x ∈ l, x ≤ l.foldl max v := by
  induction l with
  | nil => exact fun v => ⟨le_refl v, by simp⟩
  | cons x xs ih =>
    intro v
    obtain ⟨h1, h2⟩ := ih (max v x)
    refine ⟨le_trans (le_max_left _ _) h1, ?_⟩
    intro y hy
    rcases List.mem_cons.mp hy with rfl | hy
    · exact le_trans (le_max_right _ _) h1
    · exact h2 y hy

lemma foldl_min_mem (l : List ℚ) : ∀ (v : ℚ), l.foldl min v ∈ v :: l := by
  induction l with
  | nil => exact fun v => List.mem_cons_self _ _
  | cons x xs ih =>
    intro v
    have := ih (min v x)
    rcases List.mem_cons.mp this with he | hm
    · rcases min_choice v x with h | h
      · rw [List.foldl_cons, he, h]; exact List.mem_cons_self _ _
      · rw [List.foldl_cons, he, h]
        exact List.mem_cons_of_mem _ (List.mem_cons_self _ _)
    · rw [List.foldl_cons]
      exact List.mem_cons_of_mem _ (List.mem_cons_of_mem _ hm)

lemma foldl_max_mem (l : List ℚ) : ∀ (v : ℚ), l.foldl max v ∈ v :: l := by
  induction l with
  | nil => exact fun v => List.mem_cons_self _ _
  | cons x xs ih =>
    intro v
    have := ih (max v x)
    rcases List.mem_cons.mp this with he | hm
    · rcases max_choice v x with h | h
      · rw [List.foldl_cons, he, h]; exact List.mem_cons_self _ _
      · rw [List.foldl_cons, he, h]
        exact List.mem_cons_of_mem _ (List.mem_cons_self _ _)
    · rw [List.foldl_cons]
      exact List.mem_cons_of_mem _ (List.mem_cons_of_mem _ hm)

lemma zip_map_self {α β : Type _} (l : List α) (f : α → β) :
    ∀ pr ∈ l.zip (l.map f), pr.2 = f pr.1 ∧ pr.1 ∈ l := by
  induction l with
  | nil => simp
  | cons x xs ih =>
    intro pr hpr
    rcases List.mem_cons.mp hpr with rfl | hpr
    · exact ⟨rfl, List.mem_cons_self _ _⟩
    · obtain ⟨h1, h2⟩ := ih pr hpr
      exact ⟨h1, List.mem_cons_of_mem _ h2⟩

lemma branchScore_map_zero (l : Column) (i : ℕ) :
    branchScore (l.map fun q => (q.1, (0:ℚ))) i = 0 := by
  induction l with
  | nil => rfl
  | cons q qs ih =>
    simp only [List.map_cons, branchScore, List.lookup]
    rcases h : (i == q.1) with _ | _
    · simpa [branchScore] using ih
    · rfl

lemma columnValues_zeroColumn (l : Column) :
    ∀ x ∈ columnValues (zeroColumn l), x = (0:ℚ) := by
  intro x hx
  obtain ⟨p, _, rfl⟩ := List.mem_map.mp hx
  obtain ⟨q, _, rfl⟩ := List.mem_map.mp (by assumption : p ∈ zeroColumn l)
  rfl

lemma branchScore_normalize_zeroColumn (c : Column) (i : ℕ) :
    branchScore (normalizeColumn (zeroColumn c)) i = 0 := by
  cases c with
  | nil => rfl
  | cons p ps =>
    have hz : zeroColumn (p :: ps) = (p.1, (0:ℚ)) :: zeroColumn ps := rfl
    have hval : ∀ x ∈ columnValues (zeroColumn ps), x = (0:ℚ) :=
      columnValues_zeroColumn ps
    have hmn : colMin (0:ℚ) (columnValues (zeroColumn ps)) = 0 :=
      foldl_min_const _ _ hval
    have hmx : colMax (0:ℚ) (columnValues (zeroColumn ps)) = 0 :=
      foldl_max_const _ _ hval
    rw [hz]
    show branchScore (normalizeColumn ((p.1, 0) :: zeroColumn ps)) i = 0
    unfold normalizeColumn
    simp only [hmn, hmx, if_pos]
    exact branchScore_map_zero _ i

/-- C1: FusionEngine produces exactly one ScoredShot per shot of the
ShotStore, with `final_score = w_hd * HD + w_txt * TXT + w_aud * AUD` where
each branch term defaults to `0` when the branch never scored the shot (so a
shot absent from all branches gets `final_score = 0`), and no clamping is
applied: the score can exceed `1` when the weights sum above `1`. -/
theorem C1_fusion_per_shot :
    (∀ (shots : List Shot) (t : ScoreTable) (w : FusionWeights),
      (fuse shots t w).map ScoredShot.shot = shots ∧
      (∀ p ∈ fuse shots t w,
        p.final_score =
          w.w_hd * branchScore t.hd p.shot.id +
          w.w_txt * branchScore t.txt p.shot.id +
          w.w_aud * branchScore t.aud p.shot.id) ∧
      (∀ p ∈ fuse shots t w,
        t.hd.lookup p.shot.id = none → t.txt.lookup p.shot.id = none →
        t.aud.lookup p.shot.id = none → p.final_score = 0)) ∧
    1 < ((fuse [⟨0, 0, 1⟩] ⟨[(0, 1)], [(0, 1)], []⟩ ⟨1, 1, 1⟩).map
          ScoredShot.final_score).sum := by
  constructor
  · intro shots t w
    refine ⟨?_, ?_, ?_⟩
    · simp [fuse, List.map_map, Function.comp_def]
    · intro p hp
      obtain ⟨s, _, rfl⟩ := List.mem_map.mp hp
      rfl
    · intro p hp h1 h2 h3
      obtain ⟨s, _, rfl⟩ := List.mem_map.mp hp
      simp only [branchScore] at *
      simp [h1, h2, h3]
  · norm_num [fuse, branchScore, List.lookup]

/-- Witness for C1: a shot absent from every branch column receives
`final_score = 0`. -/
theorem C1_fusion_per_shot_witness :
    (⟨⟨7, 0, 1⟩, (2:ℚ) * branchScore [(3, 5)] 7 + 3 * branchScore [] 7 +
        4 * branchScore [] 7⟩ : ScoredShot).final_score = 0 := by
  have h := (C1_fusion_per_shot.1 [⟨7, 0, 1⟩] ⟨[(3, 5)], [], []⟩ ⟨2, 3, 4⟩).2.2
  exact h _ (by simp [fuse]) rfl rfl rfl

/-- C4: a branch column in which all present raw values are equal (including
the all-zero and the single-shot case) normalizes entirely to `0` rather than
dividing by zero. -/
theorem C4_degenerate_normalization (col : Column)
    (h : ∀ p ∈ col, ∀ q ∈ col, p.2 = q.2) :
    normalizeColumn col = col.map fun q => (q.1, 0) := by
  cases col with
  | nil => rfl
  | cons p ps =>
    have hval : ∀ x ∈ columnValues ps, x = p.2 := by
      intro x hx
      obtain ⟨q, hq, rfl⟩ := List.mem_map.mp hx
      exact h q (List.mem_cons_of_mem _ hq) p (List.mem_cons_self _ _)
    unfold normalizeColumn
    simp only [colMin, colMax, foldl_min_const _ _ hval,
      foldl_max_const _ _ hval]
    simp

/-- Witness for C4: a constant column normalizes to all zeros. -/
theorem C4_degenerate_normalization_witness :
    normalizeColumn [(0, 3), (1, 3)] = [(0, 0), (1, 0)] := by
  have h := C4_degenerate_normalization [(0, 3), (1, 3)] (by decide)
  simpa using h

/-- C5: in a non-degenerate branch column every normalized value lies in
`[0, 1]`; positionally, the entry holding the raw minimum maps to `0` and the
entry holding the raw maximum maps to `1`, per
`normalized = (raw - min) / (max - min)`. -/
theorem C5_normalization_range (col : Column)
    (h : ¬ ∀ p ∈ col, ∀ q ∈ col, p.2 = q.2) :
    (∀ p ∈ normalizeColumn col, 0 ≤ p.2 ∧ p.2 ≤ 1) ∧
    (∀ pr ∈ col.zip (normalizeColumn col),
      (∀ q ∈ col, pr.1.2 ≤ q.2) → pr.2 = (pr.1.1, 0)) ∧
    (∀ pr ∈ col.zip (normalizeColumn col),
      (∀ q ∈ col, q.2 ≤ pr.1.2) → pr.2 = (pr.1.1, 1)) := by
  cases col with
  | nil => simp at h
  | cons p ps =>
    set mn := colMin p.2 (columnValues ps) with hmn_def
    set mx := colMax p.2 (columnValues ps) with hmx_def
    have hmem_val : ∀ q ∈ p :: ps, q.2 ∈ p.2 :: columnValues ps := by
      intro q hq
      rcases List.mem_cons.mp hq with rfl | hq
      · exact List.mem_cons_self _ _
      · exact List.mem_cons_of_mem _ (List.mem_map_of_mem Prod.snd hq)
    have hmn_le : ∀ q ∈ p :: ps, mn ≤ q.2 := by
      intro q hq
      rcases List.mem_cons.mp (hmem_val q hq) with he | hm
      · exact he ▸ (foldl_min_le (columnValues ps) p.2).1
      · exact (foldl_min_le (columnValues ps) p.2).2 _ hm
    have hle_mx : ∀ q ∈ p :: ps, q.2 ≤ mx := by
      intro q hq
      rcases List.mem_cons.mp (hmem_val q hq) with he | hm
      · exact he ▸ (le_foldl_max (columnValues ps) p.2).1
      · exact (le_foldl_max (columnValues ps) p.2).2 _ hm
    have hmn_mem : ∃ q ∈ p :: ps, q.2 = mn := by
      rcases List.mem_cons.mp (foldl_min_mem (columnValues ps) p.2) with he | hm
      · exact ⟨p, List.mem_cons_self _ _, he.symm⟩
      · obtain ⟨q, hq, hq2⟩ := List.mem_map.mp hm
        exact ⟨q, List.mem_cons_of_mem _ hq, hq2⟩
    have hmx_mem : ∃ q ∈ p :: ps, q.2 = mx := by
      rcases List.mem_cons.mp (foldl_max_mem (columnValues ps) p.2) with he | hm
      · exact ⟨p, List.mem_cons_self _ _, he.symm⟩
      · obtain ⟨q, hq, hq2⟩ := List.mem_map.mp hm
        exact ⟨q, List.mem_cons_of_mem _ hq, hq2⟩
    have hne : mx ≠ mn := by
      intro he
      apply h
      intro a ha b hb
      have ha2 : a.2 = mn := le_antisymm (he ▸ hle_mx a ha) (hmn_le a ha)
      have hb2 : b.2 = mn := le_antisymm (he ▸ hle_mx b hb) (hmn_le b hb)
      rw [ha2, hb2]
    have hlt : mn < mx :=
      lt_of_le_of_ne (le_trans (hmn_le p (List.mem_cons_self _ _))
        (hle_mx p (List.mem_cons_self _ _))) (Ne.symm hne)
    have hpos : 0 < mx - mn := sub_pos.mpr hlt
    have hcol : normalizeColumn (p :: ps) =
        (p :: ps).map fun q => (q.1, (q.2 - mn) / (mx - mn)) := by
      unfold normalizeColumn
      simp only [← hmn_def, ← hmx_def, if_neg hne]
    refine ⟨?_, ?_, ?_⟩
    · intro q hq
      rw [hcol] at hq
      obtain ⟨a, ha, rfl⟩ := List.mem_map.mp hq
      constructor
      · exact div_nonneg (sub_nonneg.mpr (hmn_le a ha)) hpos.le
      · rw [div_le_one hpos]
        exact sub_le_sub_right (hle_mx a ha) mn
    · intro pr hpr hq
      rw [hcol] at hpr
      obtain ⟨h1, h2⟩ := zip_map_self _ _ pr hpr
      obtain ⟨qm, hqm, hqm2⟩ := hmn_mem
      have : pr.1.2 = mn := le_antisymm (hqm2 ▸ hq qm hqm) (hmn_le _ h2)
      rw [h1, this, sub_self, zero_div]
    · intro pr hpr hq
      rw [hcol] at hpr
      obtain ⟨h1, h2⟩ := zip_map_self _ _ pr hpr
      obtain ⟨qm, hqm, hqm2⟩ := hmx_mem
      have : pr.1.2 = mx := le_antisymm (hle_mx _ h2) (hqm2 ▸ hq qm hqm)
      rw [h1, this, div_self hpos.ne']

/-- Witness for C5: on the column `[0, 2, 1]` the normalized value of the
last entry lies in `[0, 1]`. -/
theorem C5_normalization_range_witness :
    0 ≤ ((normalizeColumn [(0, (0:ℚ)), (1, 2), (2, 1)]).getD 2 (0, 0)).2 ∧
    ((normalizeColumn [(0, (0:ℚ)), (1, 2), (2, 1)]).getD 2 (0, 0)).2 ≤ 1 := by
  have hcol : normalizeColumn [(0, (0:ℚ)), (1, 2), (2, 1)] =
      [(0, 0), (1, 1), (2, 1/2)] := by
    norm_num [normalizeColumn, colMin, colMax, columnValues, min_def, max_def]
  have h := C5_normalization_range [(0, (0:ℚ)), (1, 2), (2, 1)] (by decide)
  have hm : ((2:ℕ), (1:ℚ)/2) ∈ normalizeColumn [(0, (0:ℚ)), (1, 2), (2, 1)] := by
    rw [hcol]; simp
  have := h.1 _ hm
  rw [hcol]
  simpa using this

/-- C7: fusion is linear: doubling all three weights doubles every
`final_score`, and zeroing one branch's weight gives the same scores as
zeroing that branch's raw values before normalization and fusion. -/
theorem C7_fusion_linearity :
    ∀ (shots : List Shot) (t raw : ScoreTable) (w : FusionWeights),
      ((fuse shots t (scaleWeights 2 w)).map ScoredShot.final_score =
        (fuse shots t w).map fun p => 2 * p.final_score) ∧
      ((fuse shots (normalizeTable raw) ⟨0, w.w_txt, w.w_aud⟩).map
          ScoredShot.final_score =
        (fuse shots (normalizeTable ⟨zeroColumn raw.hd, raw.txt, raw.aud⟩)
          w).map ScoredShot.final_score) ∧
      ((fuse shots (normalizeTable raw) ⟨w.w_hd, 0, w.w_aud⟩).map
          ScoredShot.final_score =
        (fuse shots (normalizeTable ⟨raw.hd, zeroColumn raw.txt, raw.aud⟩)
          w).map ScoredShot.final_score) ∧
      ((fuse shots (normalizeTable raw) ⟨w.w_hd, w.w_txt, 0⟩).map
          ScoredShot.final_score =
        (fuse shots (normalizeTable ⟨raw.hd, raw.txt, zeroColumn raw.aud⟩)
          w).map ScoredShot.final_score) := by
  intro shots t raw w
  refine ⟨?_, ?_, ?_, ?_⟩
  · simp only [fuse, List.map_map]
    apply List.map_congr_left
    intro s _
    simp only [Function.comp_apply, scaleWeights]
    ring
  · simp only [fuse, List.map_map]
    apply List.map_congr_left
    intro s _
    simp only [Function.comp_apply, normalizeTable]
    rw [branchScore_normalize_zeroColumn]
    ring
  · simp only [fuse, List.map_map]
    apply List.map_congr_left
    intro s _
    simp only [Function.comp_apply, normalizeTable]
    rw [branchScore_normalize_zeroColumn]
    ring
  · simp only [fuse, List.map_map]
    apply List.map_congr_left
    intro s _
    simp only [Function.comp_apply, normalizeTable]
    rw [branchScore_normalize_zeroColumn]
    ring

lemma mergeGo_head (gap : ℚ) (t : List Span) : ∀ (cur : Span),
    (∀ s ∈ t, cur.start ≤ s.start) →
    ∃ c rest, mergeGo gap cur t = c :: rest ∧ c.start = cur.start := by
  induction t with
  | nil => exact fun cur _ => ⟨cur, [], rfl, rfl⟩
  | cons h t ih =>
    intro cur hle
    unfold mergeGo
    split
    · have hcur : (mergeSpan cur h).start = cur.start :=
        min_eq_left (hle h (List.mem_cons_self _ _))
      obtain ⟨c, rest, he, hc⟩ := ih (mergeSpan cur h) (fun s hs =>
        le_trans (min_le_left cur.start h.start)
          (hle s (List.mem_cons_of_mem _ hs)))
      exact ⟨c, rest, he, hc.trans hcur⟩
    · exact ⟨cur, _, rfl, rfl⟩

lemma mergeGo_chain (gap : ℚ) (t : List Span) : ∀ (cur : Span),
    List.Pairwise (fun a b : Span => a.start ≤ b.start) (cur :: t) →
    List.Chain' (fun a b : Span => gap ≤ b.start - a.«end»)
      (mergeGo gap cur t) := by
  induction t with
  | nil => exact fun cur _ => List.chain'_singleton cur
  | cons h t ih =>
    intro cur hp
    have hcur_le : ∀ s ∈ h :: t, cur.start ≤ s.start :=
      (List.pairwise_cons.mp hp).1
    have hp_tail : List.Pairwise (fun a b : Span => a.start ≤ b.start) (h :: t) :=
      (List.pairwise_cons.mp hp).2
    unfold mergeGo
    split
    · apply ih (mergeSpan cur h)
      apply List.pairwise_cons.mpr
      refine ⟨?_, (List.pairwise_cons.mp hp_tail).2⟩
      intro s hs
      exact le_trans (min_le_right cur.start h.start)
        ((List.pairwise_cons.mp hp_tail).1 s hs)
    · rename_i hif
      apply List.chain'_cons'.mpr
      constructor
      · intro y hy
        obtain ⟨c, rest, he, hc⟩ := mergeGo_head gap t h
          (List.pairwise_cons.mp hp_tail).1
        rw [he] at hy
        simp only [List.head?_cons, Option.mem_def, Option.some.injEq] at hy
        rw [← hy, hc]
        exact not_lt.mp hif
      · exact ih h hp_tail

lemma mergeGo_pos (gap : ℚ) (t : List Span) : ∀ (cur : Span),
    cur.start < cur.«end» → (∀ s ∈ t, s.start < s.«end») →
    ∀ s ∈ mergeGo gap cur t, s.start < s.«end» := by
  induction t with
  | nil =>
    intro cur hc _ s hs
    rw [mergeGo] at hs
    rwa [List.mem_singleton.mp hs]
  | cons h t ih =>
    intro cur hc ht s hs
    rw [mergeGo] at hs
    split at hs
    · refine ih (mergeSpan cur h) ?_ (fun x hx => ht x (List.mem_cons_of_mem _ hx)) s hs
      calc (mergeSpan cur h).start ≤ cur.start := min_le_left _ _
        _ < cur.«end» := hc
        _ ≤ (mergeSpan cur h).«end» := le_max_left _ _
    · rcases List.mem_cons.mp hs with rfl | hs
      · exact hc
      · exact ih h (ht h (List.mem_cons_self _ _))
          (fun x hx => ht x (List.mem_cons_of_mem _ hx)) s hs

lemma mergeGo_id (gap : ℚ) (t : List Span) : ∀ (cur : Span),
    List.Chain' (fun a b : Span => gap ≤ b.start - a.«end») (cur :: t) →
    mergeGo gap cur t = cur :: t := by
  induction t with
  | nil => exact fun cur _ => rfl
  | cons h t ih =>
    intro cur hc
    have h1 : gap ≤ h.start - cur.«end» := (List.chain'_cons.mp hc).1
    rw [mergeGo, if_neg (not_lt.mpr h1), ih h (List.chain'_cons.mp hc).2]

lemma chain_gapOK_merge_id (gap : ℚ) (l : List Span)
    (h : List.Chain' (fun a b : Span => gap ≤ b.start - a.«end») l) :
    mergeAdjacent gap l = l := by
  cases l with
  | nil => rfl
  | cons c rest => exact mergeGo_id gap rest c h

/-- C6: for every `merge_gap ≥ 0` the adjacent-merge step is idempotent on
chronologically ordered span lists: applying it to a list it already produced,
with the same `merge_gap`, returns an identical list. -/
theorem C6_merge_idempotent (gap : ℚ) (l : List Span) (_hgap : 0 ≤ gap)
    (hsorted : List.Pairwise (fun a b : Span => a.start ≤ b.start) l) :
    mergeAdjacent gap (mergeAdjacent gap l) = mergeAdjacent gap l := by
  cases l with
  | nil => rfl
  | cons h t => exact chain_gapOK_merge_id gap _ (mergeGo_chain gap t h hsorted)

/-- Witness for C6: idempotence at a concrete merged list. -/
theorem C6_merge_idempotent_witness :
    mergeAdjacent 1 (mergeAdjacent 1 [⟨0, 2, 5⟩, ⟨10, 12, 3⟩]) =
      mergeAdjacent 1 [⟨0, 2, 5⟩, ⟨10, 12, 3⟩] :=
  C6_merge_idempotent 1 [⟨0, 2, 5⟩, ⟨10, 12, 3⟩] (by norm_num)
    (by decide)

/-- C8: zero shots supplied to the HighlightSelector yield an empty Highlight
list and no error for every valid configuration. -/
theorem C8_empty_input (cfg : FusionConfig) (B : ℚ) (h : validConfig cfg) :
    runHighlightSelector cfg B [] = .ok [] := by
  unfold runHighlightSelector
  rw [if_pos h]
  rfl

/-- Witness for C8: the default configuration is valid and empty input yields
`ok []`. -/
theorem C8_empty_input_witness :
    runHighlightSelector ⟨⟨11/20, 9/20, 0⟩, 60, 2, 10, 1⟩ 100 [] = .ok [] :=
  C8_empty_input _ 100 (by norm_num [validConfig])

lemma totalDuration_cons (s : ScoredShot) (l : List ScoredShot) :
    totalDuration (s :: l) = duration s.shot + totalDuration l := by
  simp [totalDuration]

lemma accumulateGo_total (budget : ℚ) (l : List ScoredShot) : ∀ (acc : ℚ),
    acc + totalDuration (accumulateGo budget acc l) ≤ max acc budget := by
  induction l with
  | nil =>
    intro acc
    simp [accumulateGo, totalDuration]
  | cons s ss ih =>
    intro acc
    unfold accumulateGo
    split
    · rename_i hle
      rw [totalDuration_cons]
      calc acc + (duration s.shot +
              totalDuration (accumulateGo budget (acc + duration s.shot) ss))
          = (acc + duration s.shot) +
              totalDuration (accumulateGo budget (acc + duration s.shot) ss) := by
            ring
        _ ≤ max (acc + duration s.shot) budget := ih _
        _ = budget := max_eq_right hle
        _ ≤ max acc budget := le_max_right _ _
    · simp [totalDuration]

/-- C2 (amended): after the greedy accumulation stage (before merging and
length enforcement) the total selected duration exceeds `keep_seconds` by at
most one selected shot's duration, and at least one shot is always admitted
for non-empty input. -/
theorem C2_duration_budget_amended (cfg : FusionConfig)
    (input : List ScoredShot) (hv : validConfig cfg)
    (hdur : ∀ p ∈ input, 0 ≤ duration p.shot) (hne : input ≠ []) :
    selectionStage cfg input ≠ [] ∧
    ∃ p ∈ input, totalDuration (selectionStage cfg input) ≤
      cfg.keep_seconds + duration p.shot := by
  have hperm := List.perm_insertionSort rankRel input
  cases hr : List.insertionSort rankRel input with
  | nil =>
    exact absurd ((hr ▸ hperm).symm.eq_nil) hne
  | cons s rest =>
    have hs_mem : s ∈ input :=
      hperm.subset (hr ▸ List.mem_cons_self s rest)
    have hsel : selectionStage cfg input =
        s :: accumulateGo cfg.keep_seconds (duration s.shot) rest := by
      rw [selectionStage, hr, accumulate]
    refine ⟨by rw [hsel]; exact List.cons_ne_nil _ _, s, hs_mem, ?_⟩
    rw [hsel, totalDuration_cons]
    have h := accumulateGo_total cfg.keep_seconds rest (duration s.shot)
    have hkeep : 0 < cfg.keep_seconds := hv.2.2.2.1
    have hds : 0 ≤ duration s.shot := hdur s hs_mem
    calc duration s.shot +
          totalDuration (accumulateGo cfg.keep_seconds (duration s.shot) rest)
        ≤ max (duration s.shot) cfg.keep_seconds := h
      _ ≤ cfg.keep_seconds + duration s.shot :=
        max_le (by linarith) (by linarith)

/-- Witness for C2 (amended): a single two-second shot under a ten-second
budget. -/
theorem C2_duration_budget_amended_witness :
    selectionStage ⟨⟨1, 1, 0⟩, 10, 1, 5, 1⟩ [⟨⟨0, 0, 2⟩, 1⟩] ≠ [] ∧
    totalDuration (selectionStage ⟨⟨1, 1, 0⟩, 10, 1, 5, 1⟩ [⟨⟨0, 0, 2⟩, 1⟩]) ≤
      10 + duration (⟨0, 0, 2⟩ : Shot) := by
  obtain ⟨h1, p, hp, hle⟩ :=
    C2_duration_budget_amended ⟨⟨1, 1, 0⟩, 10, 1, 5, 1⟩ [⟨⟨0, 0, 2⟩, 1⟩]
      (by norm_num [validConfig])
      (by
        intro p hp
        rw [List.mem_singleton] at hp
        subst hp
        norm_num [duration])
      (by simp)
  rw [List.mem_singleton] at hp
  subst hp
  exact ⟨h1, hle⟩

/-- Input of the C2 counterexample: five equal-score shots of duration `20`
separated by gaps of `9`. -/
def c2cexShots : List ScoredShot :=
  [⟨⟨0, 0, 20⟩, 0⟩, ⟨⟨1, 29, 49⟩, 0⟩, ⟨⟨2, 58, 78⟩, 0⟩,
   ⟨⟨3, 87, 107⟩, 0⟩, ⟨⟨4, 116, 136⟩, 0⟩]

/-- Configuration of the C2 counterexample: budget `100`, `merge_gap 10`. -/
def c2cexCfg : FusionConfig := ⟨⟨1, 0, 0⟩, 100, 1, 1000, 10⟩

/-- C2 is false of the final Highlight list: merging absorbs the gaps, so the
returned total duration (`136`) exceeds `keep_seconds` (`100`) by more than
any single input shot's duration (every shot lasts `20` seconds). -/
theorem C2_duration_budget_counterexample :
    validConfig c2cexCfg ∧
    (c2cexShots.map fun p => duration p.shot) = [20, 20, 20, 20, 20] ∧
    ((selectHighlights c2cexCfg 1000 c2cexShots).map
        fun h => h.«end» - h.start).sum = 136 ∧
    c2cexCfg.keep_seconds + 20 < 136 := by
  refine ⟨by norm_num [validConfig, c2cexCfg], ?_, ?_, by norm_num [c2cexCfg]⟩
  · norm_num [c2cexShots, duration]
  · have hRanked : List.insertionSort rankRel c2cexShots = c2cexShots := by
      norm_num [c2cexShots, List.insertionSort, List.orderedInsert, rankRel]
    have hSel : selectionStage c2cexCfg c2cexShots = c2cexShots := by
      rw [selectionStage, hRanked]
      norm_num [accumulate, accumulateGo, c2cexShots, c2cexCfg, duration]
    have hChron : chronStage c2cexCfg c2cexShots = c2cexShots := by
      rw [chronStage, hSel]
      norm_num [c2cexShots, List.insertionSort, List.orderedInsert, chronRel]
    have hMerged : mergedStage c2cexCfg c2cexShots = [⟨0, 136, 0⟩] := by
      rw [mergedStage, spanStage, hChron]
      norm_num [c2cexShots, c2cexCfg, mergeAdjacent, mergeGo, mergeSpan,
        min_def, max_def]
    have hFinal : selectHighlights c2cexCfg 1000 c2cexShots =
        [⟨0, 136, 0, 1⟩] := by
      rw [selectHighlights, selectSpans, hMerged]
      norm_num [c2cexCfg, enforceLength, extendSpan, truncateSpan,
        assignRanks, List.filter]
    rw [hFinal]
    norm_num

lemma accumulateGo_subset (budget : ℚ) (l : List ScoredShot) : ∀ (acc : ℚ),
    ∀ p ∈ accumulateGo budget acc l, p ∈ l := by
  induction l with
  | nil => intro acc p hp; rw [accumulateGo] at hp; exact absurd hp (List.not_mem_nil p)
  | cons s ss ih =>
    intro acc p hp
    rw [accumulateGo] at hp
    split at hp
    · rcases List.mem_cons.mp hp with rfl | hp
      · exact List.mem_cons_self _ _
      · exact List.mem_cons_of_mem _ (ih _ p hp)
    · exact absurd hp (List.not_mem_nil p)

lemma accumulate_subset (budget : ℚ) (l : List ScoredShot) :
    ∀ p ∈ accumulate budget l, p ∈ l := by
  cases l with
  | nil => intro p hp; exact hp
  | cons s ss =>
    intro p hp
    rcases List.mem_cons.mp hp with rfl | hp
    · exact List.mem_cons_self _ _
    · exact List.mem_cons_of_mem _ (accumulateGo_subset budget ss _ p hp)

lemma chain_spanR (gap : ℚ) (hgap : 0 ≤ gap) : ∀ (l : List Span),
    (∀ s ∈ l, s.start < s.«end») →
    List.Chain' (fun a b : Span => gap ≤ b.start - a.«end») l →
    List.Chain' (fun a b : Span => a.start < b.start ∧ a.«end» ≤ b.start) l := by
  intro l
  induction l with
  | nil => intro _ _; exact List.chain'_nil
  | cons a t ih =>
    intro hpos hc
    obtain ⟨h1, h2⟩ := List.chain'_cons'.mp hc
    apply List.chain'_cons'.mpr
    constructor
    · intro y hy
      have hgapY := h1 y hy
      have hEnd : a.«end» ≤ y.start := by linarith
      exact ⟨lt_of_lt_of_le (hpos a (List.mem_cons_self _ _)) hEnd, hEnd⟩
    · exact ih (fun s hs => hpos s (List.mem_cons_of_mem _ hs)) h2

lemma truncateSpan_start (m : ℚ) (s : Span) :
    (truncateSpan m s).start = s.start := by
  unfold truncateSpan; split <;> rfl

lemma truncateSpan_end_le (m : ℚ) (s : Span) :
    (truncateSpan m s).«end» ≤ s.«end» := by
  unfold truncateSpan
  split
  · rename_i h
    show s.start + m ≤ s.«end»
    linarith
  · exact le_refl _

/-- C3 (amended): when every merged span already reaches `min_len` (so the
`min_len` extension of the length-enforcement step is not triggered), the
final Highlight list is strictly ordered by `start` and no two entries
overlap, for positive-duration input shots and `merge_gap ≥ 0`. -/
theorem C3_chronological_amended (cfg : FusionConfig) (B : ℚ)
    (input : List ScoredShot) (hgap : 0 ≤ cfg.merge_gap)
    (hwf : ∀ p ∈ input, p.shot.start < p.shot.«end»)
    (hnoext : ∀ sp ∈ mergedStage cfg input,
      cfg.min_len ≤ sp.«end» - sp.start) :
    List.Pairwise (fun a b : Highlight => a.start < b.start ∧ a.«end» ≤ b.start)
      (selectHighlights cfg B input) := by
  have hchron : List.Sorted chronRel (chronStage cfg input) :=
    List.sorted_insertionSort chronRel _
  have hspan_sorted :
      List.Pairwise (fun a b : Span => a.start ≤ b.start)
        (spanStage cfg input) :=
    List.Pairwise.map _ (fun a b h => h) hchron
  have hspan_pos : ∀ sp ∈ spanStage cfg input, sp.start < sp.«end» := by
    intro sp hsp
    obtain ⟨p, hp, rfl⟩ := List.mem_map.mp hsp
    have hp1 : p ∈ selectionStage cfg input :=
      (List.perm_insertionSort chronRel _).subset hp
    have hp2 : p ∈ List.insertionSort rankRel input :=
      accumulate_subset _ _ p hp1
    exact hwf p ((List.perm_insertionSort rankRel input).subset hp2)
  have hmerged_chain :
      List.Chain' (fun a b : Span => cfg.merge_gap ≤ b.start - a.«end»)
        (mergedStage cfg input) := by
    rw [mergedStage]
    cases hs : spanStage cfg input with
    | nil => exact List.chain'_nil
    | cons h t =>
      exact mergeGo_chain cfg.merge_gap t h (hs ▸ hspan_sorted)
  have hmerged_pos : ∀ sp ∈ mergedStage cfg input, sp.start < sp.«end» := by
    rw [mergedStage]
    cases hs : spanStage cfg input with
    | nil => intro sp hsp; exact absurd hsp (List.not_mem_nil sp)
    | cons h t =>
      have := hs ▸ hspan_pos
      exact mergeGo_pos cfg.merge_gap t h (this h (List.mem_cons_self _ _))
        (fun s hsm => this s (List.mem_cons_of_mem _ hsm))
  have hmerged_R :
      List.Pairwise (fun a b : Span => a.start < b.start ∧ a.«end» ≤ b.start)
        (mergedStage cfg input) := by
    haveI : IsTrans Span
        (fun a b : Span => a.start < b.start ∧ a.«end» ≤ b.start) :=
      ⟨fun _ _ _ h1 h2 => ⟨h1.1.trans h2.1, (h1.2.trans_lt h2.1).le⟩⟩
    exact List.chain'_iff_pairwise.mp
      (chain_spanR cfg.merge_gap hgap _ hmerged_pos hmerged_chain)
  have hmap : selectSpans cfg B input =
      (mergedStage cfg input).map (truncateSpan cfg.max_len) := by
    apply List.map_congr_left
    intro sp hsp
    unfold enforceLength extendSpan
    rw [if_pos (hnoext sp hsp)]
  have hfinal_R :
      List.Pairwise (fun a b : Span => a.start < b.start ∧ a.«end» ≤ b.start)
        (selectSpans cfg B input) := by
    rw [hmap]
    apply List.Pairwise.map _ ?_ hmerged_R
    intro a b hab
    rw [truncateSpan_start, truncateSpan_start]
    exact ⟨hab.1, le_trans (truncateSpan_end_le _ _) hab.2⟩
  exact List.Pairwise.map _ (fun a b hab => hab) hfinal_R

/-- Witness for C3 (amended): two disjoint long shots produce a strictly
ordered, non-overlapping Highlight list. -/
theorem C3_chronological_amended_witness :
    List.Pairwise (fun a b : Highlight => a.start < b.start ∧ a.«end» ≤ b.start)
      (selectHighlights ⟨⟨1, 0, 0⟩, 100, 1, 50, 1⟩ 1000
        [⟨⟨0, 0, 10⟩, 5⟩, ⟨⟨1, 20, 30⟩, 3⟩]) := by
  have hm : mergedStage ⟨⟨1, 0, 0⟩, 100, 1, 50, 1⟩
      [⟨⟨0, 0, 10⟩, 5⟩, ⟨⟨1, 20, 30⟩, 3⟩] = [⟨0, 10, 5⟩, ⟨20, 30, 3⟩] := by
    norm_num [mergedStage, spanStage, chronStage, selectionStage,
      List.insertionSort, List.orderedInsert, rankRel, chronRel,
      accumulate, accumulateGo, duration, mergeAdjacent, mergeGo, mergeSpan,
      min_def, max_def]
  apply C3_chronological_amended
  · norm_num
  · intro p hp
    rcases List.mem_cons.mp hp with rfl | hp
    · norm_num
    · rw [List.mem_singleton] at hp
      subst hp
      norm_num
  · rw [hm]
    intro sp hsp
    rcases List.mem_cons.mp hsp with rfl | hsp
    · norm_num
    · rw [List.mem_singleton] at hsp
      subst hsp
      norm_num

/-- Input of the C3 counterexample: a short shot followed by a long one,
separated by a gap wider than `merge_gap`. -/
def c3cexShots : List ScoredShot := [⟨⟨0, 100, 104⟩, 2⟩, ⟨⟨1, 108, 130⟩, 1⟩]

/-- Configuration of the C3 counterexample: `min_len 20` forces extension of
the short shot. -/
def c3cexCfg : FusionConfig := ⟨⟨1, 0, 0⟩, 600, 20, 100, 2⟩

/-- C3 is false of the final Highlight list: the `min_len` extension of the
length-enforcement step stretches the first span to `(92, 112)`, which
overlaps the second entry starting at `108`. -/
theorem C3_chronological_counterexample :
    validConfig c3cexCfg ∧
    selectHighlights c3cexCfg 200 c3cexShots =
      [⟨92, 112, 2, 1⟩, ⟨108, 130, 1, 2⟩] ∧
    (108 : ℚ) < 112 := by
  refine ⟨by norm_num [validConfig, c3cexCfg], ?_, by norm_num⟩
  have hm : mergedStage c3cexCfg c3cexShots =
      [⟨100, 104, 2⟩, ⟨108, 130, 1⟩] := by
    norm_num [mergedStage, spanStage, chronStage, selectionStage,
      c3cexShots, c3cexCfg, List.insertionSort, List.orderedInsert,
      rankRel, chronRel, accumulate, accumulateGo, duration,
      mergeAdjacent, mergeGo, mergeSpan, min_def, max_def]
  rw [selectHighlights, selectSpans, hm]
  norm_num [c3cexCfg, enforceLength, extendSpan, truncateSpan,
    assignRanks, List.filter, min_def, max_def]

end L2S

namespace Frontend

/-- C9: the `Modal` component renders nothing when `isOpen` is false,
regardless of `onClose` and `children`, and renders the children inside the
modal window when `isOpen` is true. -/
theorem C9_modal_render :
    ∀ (α : Type) (onClose : Unit → Unit) (children : α),
      Modal ⟨false, onClose, children⟩ = none ∧
      Modal ⟨true, onClose, children⟩ = some ⟨onClose, ⟨children⟩⟩ :=
  fun _ _ _ => ⟨rfl, rfl⟩

lemma emailRules_none (v : List Char) :
    emailRules v = none ↔ v ≠ [] ∧ matchesEmailPattern v = true := by
  unfold emailRules
  split_ifs with h1 h2
  · simp [List.isEmpty_iff.mp h1]
  · simp only [h2, and_true, true_iff]
    intro hv
    exact h1 (by simp [hv])
  · simp [h2]

lemma passwordRules_none (v : List Char) :
    passwordRules v = none ↔
      v ≠ [] ∧ 8 ≤ v.length ∧ hasSpecialChar v = true := by
  unfold passwordRules
  split_ifs with h1 h2 h3
  · simp [List.isEmpty_iff.mp h1]
  · simp only [false_iff, not_and, not_and]
    intro _ hlen
    exact absurd h2 (not_lt.mpr hlen)
  · simp only [true_iff]
    refine ⟨fun hv => h1 (by simp [hv]), not_lt.mp h2, h3⟩
  · simp only [false_iff, not_and, not_and]
    intro _ _ hs
    exact absurd hs (by simp [h3])

lemma confirmRules_none (pw v : List Char) :
    confirmRules pw v = none ↔ v ≠ [] ∧ v = pw := by
  unfold confirmRules
  split_ifs with h1 h2
  · simp [List.isEmpty_iff.mp h1]
  · simp only [h2, and_true, true_iff]
    intro hv
    exact h1 (by simp [h2, hv])
  · simp only [false_iff, not_and]
    intro _ hm
    exact h2 hm

/-- C10: `RegisterPage` invokes the submit callback exactly when the email is
non-empty and matches the email pattern, the password is non-empty, at least
8 characters long and contains a special character, and the confirm-password
field strictly equals the watched password; on any violation the field's
validation yields its error and the callback is not invoked. -/
theorem C10_register_submit (d : RegisterFormData) :
    (submitInvoked d = true ↔
      (d.email ≠ [] ∧ matchesEmailPattern d.email = true) ∧
      (d.password ≠ [] ∧ 8 ≤ d.password.length ∧
        hasSpecialChar d.password = true) ∧
      d.confirmPassword = d.password) ∧
    (submitInvoked d = false ↔
      (emailRules d.email).isSome ∨ (passwordRules d.password).isSome ∨
      (confirmRules d.password d.confirmPassword).isSome) := by
  constructor
  · unfold submitInvoked
    simp only [Bool.and_eq_true, Option.isNone_iff_eq_none, emailRules_none,
      passwordRules_none, confirmRules_none]
    constructor
    · rintro ⟨⟨he, hp⟩, hc⟩
      exact ⟨he, hp, hc.2⟩
    · rintro ⟨he, hp, hc⟩
      refine ⟨⟨he, hp⟩, ⟨?_, hc⟩⟩
      rw [hc]
      exact hp.1
  · unfold submitInvoked
    cases emailRules d.email <;> cases passwordRules d.password <;>
      cases confirmRules d.password d.confirmPassword <;> simp

end Frontend
